import Mathlib

/-!
# Verification of the Decaf point-compression layer (`src/decaf.rs`)

This file gives a shallow embedding, over the field `F = ZMod (2^255 - 19)`, of the
Decaf encoder (`ExtendedPoint::compress_decaf`) and decoder
(`CompressedDecaf::decompress`) from `src/decaf.rs`, and proves or refutes the
frozen claims about them.

The repository ships only `decaf.rs`; the field-arithmetic type (`field.rs`), the
curve-point type (`curve.rs`), the `subtle` conditional-assignment trait and the
constant tables (`constants.rs`) are external collaborators that are not part of the
source tree.  Those collaborators are modelled from the specification's description
of their contracts; every such definition carries a doc comment starting with
`Modelled from the spec:`.  Everything translated from `decaf.rs` itself follows the
source line by line.

Machine integers do not appear: the field is `ZMod P`, byte strings are
`Fin 32 → Fin 256`, and the `u8` masks of the source are modelled as `Bool`
(`1u8 & !(a & b)` on 0/1-valued masks is boolean `!(a && b)`; `conditional_assign`
on a 0/1 mask is an `if`).  The `unwrap` inside the encoder is modelled by making
the encoder return an `Option`: a `none` result corresponds to the panic.
-/

set_option maxRecDepth 100000
set_option maxHeartbeats 2000000

/-- The field modulus `2^255 - 19` of curve25519, written as a numeral. -/
def P : ℕ := 57896044618658097711785492504343953926634992332820282019728792003956564819949

theorem P_eq : P = 2 ^ 255 - 19 := by decide

/-- Binary modular exponentiation with explicit fuel, so that the kernel can
evaluate it on 255-bit exponents. -/
def powFuel {n : ℕ} : ℕ → ZMod n → ℕ → ZMod n
  | 0, _, _ => 1
  | f + 1, x, k =>
    if k = 0 then 1
    else
      let h := powFuel f x (k / 2)
      if k % 2 = 0 then h * h else h * h * x

/-- Exponentiation in `ZMod n` by squaring, valid for exponents below `2^256`. -/
def powF {n : ℕ} (x : ZMod n) (k : ℕ) : ZMod n := powFuel 256 x k

theorem powFuel_eq {n : ℕ} (f : ℕ) (x : ZMod n) (k : ℕ) (hk : k < 2 ^ f) :
    powFuel f x k = x ^ k := by
  induction f generalizing k with
  | zero => interval_cases k; simp [powFuel]
  | succ f ih =>
    rw [powFuel]
    by_cases h0 : k = 0
    · simp [h0]
    · simp only [h0, if_false]
      have hk2 : k / 2 < 2 ^ f := by
        rw [Nat.div_lt_iff_lt_mul two_pos]
        calc k < 2 ^ (f + 1) := hk
        _ = 2 ^ f * 2 := by ring
      rw [ih _ hk2, ← pow_add]
      by_cases h2 : k % 2 = 0
      · simp only [h2, if_true]
        congr 1
        omega
      · simp only [h2, if_false]
        rw [← pow_succ]
        congr 1
        omega

theorem powF_eq {n : ℕ} (x : ZMod n) (k : ℕ) (hk : k < 2 ^ 256) : powF x k = x ^ k :=
  powFuel_eq 256 x k hk
/-! Primality certificates (Lucas / Pratt chain) for the field modulus
    P = 2^255 - 19 and the auxiliary primes appearing in the chain. -/

theorem nprime_2 : Nat.Prime 2 := by norm_num

theorem nprime_3 : Nat.Prime 3 := by norm_num

theorem nprime_5 : Nat.Prime 5 := by norm_num

theorem nprime_7 : Nat.Prime 7 := by norm_num

theorem nprime_13 : Nat.Prime 13 := by norm_num

theorem nprime_19 : Nat.Prime 19 := by norm_num

theorem nprime_31 : Nat.Prime 31 := by norm_num

theorem nprime_43 : Nat.Prime 43 := by norm_num

theorem nprime_47 : Nat.Prime 47 := by norm_num

theorem nprime_97 : Nat.Prime 97 := by norm_num

theorem nprime_103 : Nat.Prime 103 := by norm_num

theorem nprime_107 : Nat.Prime 107 := by norm_num

theorem nprime_127 : Nat.Prime 127 := by norm_num

theorem nprime_131 : Nat.Prime 131 := by norm_num

theorem nprime_223 : Nat.Prime 223 := by norm_num

theorem nprime_353 : Nat.Prime 353 := by norm_num

theorem nprime_419 : Nat.Prime 419 := by norm_num

theorem nprime_991 : Nat.Prime 991 := by norm_num

theorem nprime_1723 : Nat.Prime 1723 := by norm_num

theorem nprime_2437 : Nat.Prime 2437 := by norm_num

theorem nprime_3727 : Nat.Prime 3727 := by norm_num

theorem nprime_4153 : Nat.Prime 4153 := by norm_num

theorem nprime_57467 : Nat.Prime 57467 := by norm_num

theorem nprime_65147 : Nat.Prime 65147 := by norm_num

theorem nprime_75707 : Nat.Prime 75707 := by norm_num

theorem nprime_132049 : Nat.Prime 132049 := by
  refine lucas_primality 132049 (26 : ZMod 132049) ?_ ?_
  · rw [← powF_eq _ _ (by decide)]
    decide
  · intro q hq hdvd
    have hfac : 132049 - 1 = 2 ^ 4 * (3 ^ 2 * (7 * (131))) := by decide
    rw [hfac] at hdvd
    rcases hq.dvd_mul.mp hdvd with h | hdvd
    · replace h : q ∣ 2 := hq.dvd_of_dvd_pow h
      obtain rfl : q = 2 := (Nat.prime_dvd_prime_iff_eq hq nprime_2).mp h
      have he : 132049 - 1 = 2 * 66024 := by decide
      rw [he, Nat.mul_div_cancel_left _ (by norm_num), ← powF_eq _ _ (by decide)]
      decide
    rcases hq.dvd_mul.mp hdvd with h | hdvd
    · replace h : q ∣ 3 := hq.dvd_of_dvd_pow h
      obtain rfl : q = 3 := (Nat.prime_dvd_prime_iff_eq hq nprime_3).mp h
      have he : 132049 - 1 = 3 * 44016 := by decide
      rw [he, Nat.mul_div_cancel_left _ (by norm_num), ← powF_eq _ _ (by decide)]
      decide
    rcases hq.dvd_mul.mp hdvd with h | hdvd
    · obtain rfl : q = 7 := (Nat.prime_dvd_prime_iff_eq hq nprime_7).mp h
      have he : 132049 - 1 = 7 * 18864 := by decide
      rw [he, Nat.mul_div_cancel_left _ (by norm_num), ← powF_eq _ _ (by decide)]
      decide
    obtain rfl : q = 131 := (Nat.prime_dvd_prime_iff_eq hq nprime_131).mp hdvd
    have he : 132049 - 1 = 131 * 1008 := by decide
    rw [he, Nat.mul_div_cancel_left _ (by norm_num), ← powF_eq _ _ (by decide)]
    decide

theorem nprime_1923133 : Nat.Prime 1923133 := by
  refine lucas_primality 1923133 (2 : ZMod 1923133) ?_ ?_
  · rw [← powF_eq _ _ (by decide)]
    decide
  · intro q hq hdvd
    have hfac : 1923133 - 1 = 2 ^ 2 * (3 * (43 * (3727))) := by decide
    rw [hfac] at hdvd
    rcases hq.dvd_mul.mp hdvd with h | hdvd
    · replace h : q ∣ 2 := hq.dvd_of_dvd_pow h
      obtain rfl : q = 2 := (Nat.prime_dvd_prime_iff_eq hq nprime_2).mp h
      have he : 1923133 - 1 = 2 * 961566 := by decide
      rw [he, Nat.mul_div_cancel_left _ (by norm_num), ← powF_eq _ _ (by decide)]
      decide
    rcases hq.dvd_mul.mp hdvd with h | hdvd
    · obtain rfl : q = 3 := (Nat.prime_dvd_prime_iff_eq hq nprime_3).mp h
      have he : 1923133 - 1 = 3 * 641044 := by decide
      rw [he, Nat.mul_div_cancel_left _ (by norm_num), ← powF_eq _ _ (by decide)]
      decide
    rcases hq.dvd_mul.mp hdvd with h | hdvd
    · obtain rfl : q = 43 := (Nat.prime_dvd_prime_iff_eq hq nprime_43).mp h
      have he : 1923133 - 1 = 43 * 44724 := by decide
      rw [he, Nat.mul_div_cancel_left _ (by norm_num), ← powF_eq _ _ (by decide)]
      decide
    obtain rfl : q = 3727 := (Nat.prime_dvd_prime_iff_eq hq nprime_3727).mp hdvd
    have he : 1923133 - 1 = 3727 * 516 := by decide
    rw [he, Nat.mul_div_cancel_left _ (by norm_num), ← powF_eq _ _ (by decide)]
    decide

theorem nprime_430751 : Nat.Prime 430751 := by
  refine lucas_primality 430751 (17 : ZMod 430751) ?_ ?_
  · rw [← powF_eq _ _ (by decide)]
    decide
  · intro q hq hdvd
    have hfac : 430751 - 1 = 2 * (5 ^ 3 * (1723)) := by decide
    rw [hfac] at hdvd
    rcases hq.dvd_mul.mp hdvd with h | hdvd
    · obtain rfl : q = 2 := (Nat.prime_dvd_prime_iff_eq hq nprime_2).mp h
      have he : 430751 - 1 = 2 * 215375 := by decide
      rw [he, Nat.mul_div_cancel_left _ (by norm_num), ← powF_eq _ _ (by decide)]
      decide
    rcases hq.dvd_mul.mp hdvd with h | hdvd
    · replace h : q ∣ 5 := hq.dvd_of_dvd_pow h
      obtain rfl : q = 5 := (Nat.prime_dvd_prime_iff_eq hq nprime_5).mp h
      have he : 430751 - 1 = 5 * 86150 := by decide
      rw [he, Nat.mul_div_cancel_left _ (by norm_num), ← powF_eq _ _ (by decide)]
      decide
    obtain rfl : q = 1723 := (Nat.prime_dvd_prime_iff_eq hq nprime_1723).mp hdvd
    have he : 430751 - 1 = 1723 * 250 := by decide
    rw [he, Nat.mul_div_cancel_left _ (by norm_num), ← powF_eq _ _ (by decide)]
    decide

theorem nprime_31757755568855353 : Nat.Prime 31757755568855353 := by
  refine lucas_primality 31757755568855353 (10 : ZMod 31757755568855353) ?_ ?_
  · rw [← powF_eq _ _ (by decide)]
    decide
  · intro q hq hdvd
    have hfac : 31757755568855353 - 1 = 2 ^ 3 * (3 * (31 * (107 * (223 * (4153 * (430751)))))) := by decide
    rw [hfac] at hdvd
    rcases hq.dvd_mul.mp hdvd with h | hdvd
    · replace h : q ∣ 2 := hq.dvd_of_dvd_pow h
      obtain rfl : q = 2 := (Nat.prime_dvd_prime_iff_eq hq nprime_2).mp h
      have he : 31757755568855353 - 1 = 2 * 15878877784427676 := by decide
      rw [he, Nat.mul_div_cancel_left _ (by norm_num), ← powF_eq _ _ (by decide)]
      decide
    rcases hq.dvd_mul.mp hdvd with h | hdvd
    · obtain rfl : q = 3 := (Nat.prime_dvd_prime_iff_eq hq nprime_3).mp h
      have he : 31757755568855353 - 1 = 3 * 10585918522951784 := by decide
      rw [he, Nat.mul_div_cancel_left _ (by norm_num), ← powF_eq _ _ (by decide)]
      decide
    rcases hq.dvd_mul.mp hdvd with h | hdvd
    · obtain rfl : q = 31 := (Nat.prime_dvd_prime_iff_eq hq nprime_31).mp h
      have he : 31757755568855353 - 1 = 31 * 1024443728027592 := by decide
      rw [he, Nat.mul_div_cancel_left _ (by norm_num), ← powF_eq _ _ (by decide)]
      decide
    rcases hq.dvd_mul.mp hdvd with h | hdvd
    · obtain rfl : q = 107 := (Nat.prime_dvd_prime_iff_eq hq nprime_107).mp h
      have he : 31757755568855353 - 1 = 107 * 296801453914536 := by decide
      rw [he, Nat.mul_div_cancel_left _ (by norm_num), ← powF_eq _ _ (by decide)]
      decide
    rcases hq.dvd_mul.mp hdvd with h | hdvd
    · obtain rfl : q = 223 := (Nat.prime_dvd_prime_iff_eq hq nprime_223).mp h
      have he : 31757755568855353 - 1 = 223 * 142411459950024 := by decide
      rw [he, Nat.mul_div_cancel_left _ (by norm_num), ← powF_eq _ _ (by decide)]
      decide
    rcases hq.dvd_mul.mp hdvd with h | hdvd
    · obtain rfl : q = 4153 := (Nat.prime_dvd_prime_iff_eq hq nprime_4153).mp h
      have he : 31757755568855353 - 1 = 4153 * 7646943310584 := by decide
      rw [he, Nat.mul_div_cancel_left _ (by norm_num), ← powF_eq _ _ (by decide)]
      decide
    obtain rfl : q = 430751 := (Nat.prime_dvd_prime_iff_eq hq nprime_430751).mp hdvd
    have he : 31757755568855353 - 1 = 430751 * 73726481352 := by decide
    rw [he, Nat.mul_div_cancel_left _ (by norm_num), ← powF_eq _ _ (by decide)]
    decide

theorem nprime_569003 : Nat.Prime 569003 := by
  refine lucas_primality 569003 (2 : ZMod 569003) ?_ ?_
  · rw [← powF_eq _ _ (by decide)]
    decide
  · intro q hq hdvd
    have hfac : 569003 - 1 = 2 * (7 * (97 * (419))) := by decide
    rw [hfac] at hdvd
    rcases hq.dvd_mul.mp hdvd with h | hdvd
    · obtain rfl : q = 2 := (Nat.prime_dvd_prime_iff_eq hq nprime_2).mp h
      have he : 569003 - 1 = 2 * 284501 := by decide
      rw [he, Nat.mul_div_cancel_left _ (by norm_num), ← powF_eq _ _ (by decide)]
      decide
    rcases hq.dvd_mul.mp hdvd with h | hdvd
    · obtain rfl : q = 7 := (Nat.prime_dvd_prime_iff_eq hq nprime_7).mp h
      have he : 569003 - 1 = 7 * 81286 := by decide
      rw [he, Nat.mul_div_cancel_left _ (by norm_num), ← powF_eq _ _ (by decide)]
      decide
    rcases hq.dvd_mul.mp hdvd with h | hdvd
    · obtain rfl : q = 97 := (Nat.prime_dvd_prime_iff_eq hq nprime_97).mp h
      have he : 569003 - 1 = 97 * 5866 := by decide
      rw [he, Nat.mul_div_cancel_left _ (by norm_num), ← powF_eq _ _ (by decide)]
      decide
    obtain rfl : q = 419 := (Nat.prime_dvd_prime_iff_eq hq nprime_419).mp hdvd
    have he : 569003 - 1 = 419 * 1358 := by decide
    rw [he, Nat.mul_div_cancel_left _ (by norm_num), ← powF_eq _ _ (by decide)]
    decide

theorem nprime_2773320623 : Nat.Prime 2773320623 := by
  refine lucas_primality 2773320623 (5 : ZMod 2773320623) ?_ ?_
  · rw [← powF_eq _ _ (by decide)]
    decide
  · intro q hq hdvd
    have hfac : 2773320623 - 1 = 2 * (2437 * (569003)) := by decide
    rw [hfac] at hdvd
    rcases hq.dvd_mul.mp hdvd with h | hdvd
    · obtain rfl : q = 2 := (Nat.prime_dvd_prime_iff_eq hq nprime_2).mp h
      have he : 2773320623 - 1 = 2 * 1386660311 := by decide
      rw [he, Nat.mul_div_cancel_left _ (by norm_num), ← powF_eq _ _ (by decide)]
      decide
    rcases hq.dvd_mul.mp hdvd with h | hdvd
    · obtain rfl : q = 2437 := (Nat.prime_dvd_prime_iff_eq hq nprime_2437).mp h
      have he : 2773320623 - 1 = 2437 * 1138006 := by decide
      rw [he, Nat.mul_div_cancel_left _ (by norm_num), ← powF_eq _ _ (by decide)]
      decide
    obtain rfl : q = 569003 := (Nat.prime_dvd_prime_iff_eq hq nprime_569003).mp hdvd
    have he : 2773320623 - 1 = 569003 * 4874 := by decide
    rw [he, Nat.mul_div_cancel_left _ (by norm_num), ← powF_eq _ _ (by decide)]
    decide

theorem nprime_72106336199 : Nat.Prime 72106336199 := by
  refine lucas_primality 72106336199 (7 : ZMod 72106336199) ?_ ?_
  · rw [← powF_eq _ _ (by decide)]
    decide
  · intro q hq hdvd
    have hfac : 72106336199 - 1 = 2 * (13 * (2773320623)) := by decide
    rw [hfac] at hdvd
    rcases hq.dvd_mul.mp hdvd with h | hdvd
    · obtain rfl : q = 2 := (Nat.prime_dvd_prime_iff_eq hq nprime_2).mp h
      have he : 72106336199 - 1 = 2 * 36053168099 := by decide
      rw [he, Nat.mul_div_cancel_left _ (by norm_num), ← powF_eq _ _ (by decide)]
      decide
    rcases hq.dvd_mul.mp hdvd with h | hdvd
    · obtain rfl : q = 13 := (Nat.prime_dvd_prime_iff_eq hq nprime_13).mp h
      have he : 72106336199 - 1 = 13 * 5546641246 := by decide
      rw [he, Nat.mul_div_cancel_left _ (by norm_num), ← powF_eq _ _ (by decide)]
      decide
    obtain rfl : q = 2773320623 := (Nat.prime_dvd_prime_iff_eq hq nprime_2773320623).mp hdvd
    have he : 72106336199 - 1 = 2773320623 * 26 := by decide
    rw [he, Nat.mul_div_cancel_left _ (by norm_num), ← powF_eq _ _ (by decide)]
    decide

theorem nprime_8574133 : Nat.Prime 8574133 := by
  refine lucas_primality 8574133 (2 : ZMod 8574133) ?_ ?_
  · rw [← powF_eq _ _ (by decide)]
    decide
  · intro q hq hdvd
    have hfac : 8574133 - 1 = 2 ^ 2 * (3 * (7 * (103 * (991)))) := by decide
    rw [hfac] at hdvd
    rcases hq.dvd_mul.mp hdvd with h | hdvd
    · replace h : q ∣ 2 := hq.dvd_of_dvd_pow h
      obtain rfl : q = 2 := (Nat.prime_dvd_prime_iff_eq hq nprime_2).mp h
      have he : 8574133 - 1 = 2 * 4287066 := by decide
      rw [he, Nat.mul_div_cancel_left _ (by norm_num), ← powF_eq _ _ (by decide)]
      decide
    rcases hq.dvd_mul.mp hdvd with h | hdvd
    · obtain rfl : q = 3 := (Nat.prime_dvd_prime_iff_eq hq nprime_3).mp h
      have he : 8574133 - 1 = 3 * 2858044 := by decide
      rw [he, Nat.mul_div_cancel_left _ (by norm_num), ← powF_eq _ _ (by decide)]
      decide
    rcases hq.dvd_mul.mp hdvd with h | hdvd
    · obtain rfl : q = 7 := (Nat.prime_dvd_prime_iff_eq hq nprime_7).mp h
      have he : 8574133 - 1 = 7 * 1224876 := by decide
      rw [he, Nat.mul_div_cancel_left _ (by norm_num), ← powF_eq _ _ (by decide)]
      decide
    rcases hq.dvd_mul.mp hdvd with h | hdvd
    · obtain rfl : q = 103 := (Nat.prime_dvd_prime_iff_eq hq nprime_103).mp h
      have he : 8574133 - 1 = 103 * 83244 := by decide
      rw [he, Nat.mul_div_cancel_left _ (by norm_num), ← powF_eq _ _ (by decide)]
      decide
    obtain rfl : q = 991 := (Nat.prime_dvd_prime_iff_eq hq nprime_991).mp hdvd
    have he : 8574133 - 1 = 991 * 8652 := by decide
    rw [he, Nat.mul_div_cancel_left _ (by norm_num), ← powF_eq _ _ (by decide)]
    decide

theorem nprime_1919519569386763 : Nat.Prime 1919519569386763 := by
  refine lucas_primality 1919519569386763 (2 : ZMod 1919519569386763) ?_ ?_
  · rw [← powF_eq _ _ (by decide)]
    decide
  · intro q hq hdvd
    have hfac : 1919519569386763 - 1 = 2 * (3 * (7 * (19 * (47 ^ 2 * (127 * (8574133)))))) := by decide
    rw [hfac] at hdvd
    rcases hq.dvd_mul.mp hdvd with h | hdvd
    · obtain rfl : q = 2 := (Nat.prime_dvd_prime_iff_eq hq nprime_2).mp h
      have he : 1919519569386763 - 1 = 2 * 959759784693381 := by decide
      rw [he, Nat.mul_div_cancel_left _ (by norm_num), ← powF_eq _ _ (by decide)]
      decide
    rcases hq.dvd_mul.mp hdvd with h | hdvd
    · obtain rfl : q = 3 := (Nat.prime_dvd_prime_iff_eq hq nprime_3).mp h
      have he : 1919519569386763 - 1 = 3 * 639839856462254 := by decide
      rw [he, Nat.mul_div_cancel_left _ (by norm_num), ← powF_eq _ _ (by decide)]
      decide
    rcases hq.dvd_mul.mp hdvd with h | hdvd
    · obtain rfl : q = 7 := (Nat.prime_dvd_prime_iff_eq hq nprime_7).mp h
      have he : 1919519569386763 - 1 = 7 * 274217081340966 := by decide
      rw [he, Nat.mul_div_cancel_left _ (by norm_num), ← powF_eq _ _ (by decide)]
      decide
    rcases hq.dvd_mul.mp hdvd with h | hdvd
    · obtain rfl : q = 19 := (Nat.prime_dvd_prime_iff_eq hq nprime_19).mp h
      have he : 1919519569386763 - 1 = 19 * 101027345757198 := by decide
      rw [he, Nat.mul_div_cancel_left _ (by norm_num), ← powF_eq _ _ (by decide)]
      decide
    rcases hq.dvd_mul.mp hdvd with h | hdvd
    · replace h : q ∣ 47 := hq.dvd_of_dvd_pow h
      obtain rfl : q = 47 := (Nat.prime_dvd_prime_iff_eq hq nprime_47).mp h
      have he : 1919519569386763 - 1 = 47 * 40840841901846 := by decide
      rw [he, Nat.mul_div_cancel_left _ (by norm_num), ← powF_eq _ _ (by decide)]
      decide
    rcases hq.dvd_mul.mp hdvd with h | hdvd
    · obtain rfl : q = 127 := (Nat.prime_dvd_prime_iff_eq hq nprime_127).mp h
      have he : 1919519569386763 - 1 = 127 * 15114327318006 := by decide
      rw [he, Nat.mul_div_cancel_left _ (by norm_num), ← powF_eq _ _ (by decide)]
      decide
    obtain rfl : q = 8574133 := (Nat.prime_dvd_prime_iff_eq hq nprime_8574133).mp hdvd
    have he : 1919519569386763 - 1 = 8574133 * 223873314 := by decide
    rw [he, Nat.mul_div_cancel_left _ (by norm_num), ← powF_eq _ _ (by decide)]
    decide

theorem nprime_75445702479781427272750846543864801 : Nat.Prime 75445702479781427272750846543864801 := by
  refine lucas_primality 75445702479781427272750846543864801 (7 : ZMod 75445702479781427272750846543864801) ?_ ?_
  · rw [← powF_eq _ _ (by decide)]
    decide
  · intro q hq hdvd
    have hfac : 75445702479781427272750846543864801 - 1 = 2 ^ 5 * (3 ^ 2 * (5 ^ 2 * (75707 * (72106336199 * (1919519569386763))))) := by decide
    rw [hfac] at hdvd
    rcases hq.dvd_mul.mp hdvd with h | hdvd
    · replace h : q ∣ 2 := hq.dvd_of_dvd_pow h
      obtain rfl : q = 2 := (Nat.prime_dvd_prime_iff_eq hq nprime_2).mp h
      have he : 75445702479781427272750846543864801 - 1 = 2 * 37722851239890713636375423271932400 := by decide
      rw [he, Nat.mul_div_cancel_left _ (by norm_num), ← powF_eq _ _ (by decide)]
      decide
    rcases hq.dvd_mul.mp hdvd with h | hdvd
    · replace h : q ∣ 3 := hq.dvd_of_dvd_pow h
      obtain rfl : q = 3 := (Nat.prime_dvd_prime_iff_eq hq nprime_3).mp h
      have he : 75445702479781427272750846543864801 - 1 = 3 * 25148567493260475757583615514621600 := by decide
      rw [he, Nat.mul_div_cancel_left _ (by norm_num), ← powF_eq _ _ (by decide)]
      decide
    rcases hq.dvd_mul.mp hdvd with h | hdvd
    · replace h : q ∣ 5 := hq.dvd_of_dvd_pow h
      obtain rfl : q = 5 := (Nat.prime_dvd_prime_iff_eq hq nprime_5).mp h
      have he : 75445702479781427272750846543864801 - 1 = 5 * 15089140495956285454550169308772960 := by decide
      rw [he, Nat.mul_div_cancel_left _ (by norm_num), ← powF_eq _ _ (by decide)]
      decide
    rcases hq.dvd_mul.mp hdvd with h | hdvd
    · obtain rfl : q = 75707 := (Nat.prime_dvd_prime_iff_eq hq nprime_75707).mp h
      have he : 75445702479781427272750846543864801 - 1 = 75707 * 996548568557483816196003626400 := by decide
      rw [he, Nat.mul_div_cancel_left _ (by norm_num), ← powF_eq _ _ (by decide)]
      decide
    rcases hq.dvd_mul.mp hdvd with h | hdvd
    · obtain rfl : q = 72106336199 := (Nat.prime_dvd_prime_iff_eq hq nprime_72106336199).mp h
      have he : 75445702479781427272750846543864801 - 1 = 72106336199 * 1046311689884858398375200 := by decide
      rw [he, Nat.mul_div_cancel_left _ (by norm_num), ← powF_eq _ _ (by decide)]
      decide
    obtain rfl : q = 1919519569386763 := (Nat.prime_dvd_prime_iff_eq hq nprime_1919519569386763).mp hdvd
    have he : 75445702479781427272750846543864801 - 1 = 1919519569386763 * 39304471641247389600 := by decide
    rw [he, Nat.mul_div_cancel_left _ (by norm_num), ← powF_eq _ _ (by decide)]
    decide

theorem nprime_74058212732561358302231226437062788676166966415465897661863160754340907 : Nat.Prime 74058212732561358302231226437062788676166966415465897661863160754340907 := by
  refine lucas_primality 74058212732561358302231226437062788676166966415465897661863160754340907 (2 : ZMod 74058212732561358302231226437062788676166966415465897661863160754340907) ?_ ?_
  · rw [← powF_eq _ _ (by decide)]
    decide
  · intro q hq hdvd
    have hfac : 74058212732561358302231226437062788676166966415465897661863160754340907 - 1 = 2 * (3 * (353 * (57467 * (132049 * (1923133 * (31757755568855353 * (75445702479781427272750846543864801))))))) := by decide
    rw [hfac] at hdvd
    rcases hq.dvd_mul.mp hdvd with h | hdvd
    · obtain rfl : q = 2 := (Nat.prime_dvd_prime_iff_eq hq nprime_2).mp h
      have he : 74058212732561358302231226437062788676166966415465897661863160754340907 - 1 = 2 * 37029106366280679151115613218531394338083483207732948830931580377170453 := by decide
      rw [he, Nat.mul_div_cancel_left _ (by norm_num), ← powF_eq _ _ (by decide)]
      decide
    rcases hq.dvd_mul.mp hdvd with h | hdvd
    · obtain rfl : q = 3 := (Nat.prime_dvd_prime_iff_eq hq nprime_3).mp h
      have he : 74058212732561358302231226437062788676166966415465897661863160754340907 - 1 = 3 * 24686070910853786100743742145687596225388988805155299220621053584780302 := by decide
      rw [he, Nat.mul_div_cancel_left _ (by norm_num), ← powF_eq _ _ (by decide)]
      decide
    rcases hq.dvd_mul.mp hdvd with h | hdvd
    · obtain rfl : q = 353 := (Nat.prime_dvd_prime_iff_eq hq nprime_353).mp h
      have he : 74058212732561358302231226437062788676166966415465897661863160754340907 - 1 = 353 * 209796636636151156663544550813209033076960244803019540118592523383402 := by decide
      rw [he, Nat.mul_div_cancel_left _ (by norm_num), ← powF_eq _ _ (by decide)]
      decide
    rcases hq.dvd_mul.mp hdvd with h | hdvd
    · obtain rfl : q = 57467 := (Nat.prime_dvd_prime_iff_eq hq nprime_57467).mp h
      have he : 74058212732561358302231226437062788676166966415465897661863160754340907 - 1 = 57467 * 1288708523719027586305727224964984924846728842909250485702458119518 := by decide
      rw [he, Nat.mul_div_cancel_left _ (by norm_num), ← powF_eq _ _ (by decide)]
      decide
    rcases hq.dvd_mul.mp hdvd with h | hdvd
    · obtain rfl : q = 132049 := (Nat.prime_dvd_prime_iff_eq hq nprime_132049).mp h
      have he : 74058212732561358302231226437062788676166966415465897661863160754340907 - 1 = 132049 * 560838875966961948233089432233964578877287722099113947563882806794 := by decide
      rw [he, Nat.mul_div_cancel_left _ (by norm_num), ← powF_eq _ _ (by decide)]
      decide
    rcases hq.dvd_mul.mp hdvd with h | hdvd
    · obtain rfl : q = 1923133 := (Nat.prime_dvd_prime_iff_eq hq nprime_1923133).mp h
      have he : 74058212732561358302231226437062788676166966415465897661863160754340907 - 1 = 1923133 * 38509147694185143878364744631319200843710219946028640589009268082 := by decide
      rw [he, Nat.mul_div_cancel_left _ (by norm_num), ← powF_eq _ _ (by decide)]
      decide
    rcases hq.dvd_mul.mp hdvd with h | hdvd
    · obtain rfl : q = 31757755568855353 := (Nat.prime_dvd_prime_iff_eq hq nprime_31757755568855353).mp h
      have he : 74058212732561358302231226437062788676166966415465897661863160754340907 - 1 = 31757755568855353 * 2331972502653487852620185443007392165117953542933313402 := by decide
      rw [he, Nat.mul_div_cancel_left _ (by norm_num), ← powF_eq _ _ (by decide)]
      decide
    obtain rfl : q = 75445702479781427272750846543864801 := (Nat.prime_dvd_prime_iff_eq hq nprime_75445702479781427272750846543864801).mp hdvd
    have he : 74058212732561358302231226437062788676166966415465897661863160754340907 - 1 = 75445702479781427272750846543864801 * 981609426360740691344999861639072106 := by decide
    rw [he, Nat.mul_div_cancel_left _ (by norm_num), ← powF_eq _ _ (by decide)]
    decide

theorem P_prime : Nat.Prime P := by
  refine lucas_primality P (2 : ZMod P) ?_ ?_
  · rw [← powF_eq _ _ (by decide)]
    decide
  · intro q hq hdvd
    have hfac : P - 1 = 2 ^ 2 * (3 * (65147 * (74058212732561358302231226437062788676166966415465897661863160754340907))) := by decide
    rw [hfac] at hdvd
    rcases hq.dvd_mul.mp hdvd with h | hdvd
    · replace h : q ∣ 2 := hq.dvd_of_dvd_pow h
      obtain rfl : q = 2 := (Nat.prime_dvd_prime_iff_eq hq nprime_2).mp h
      have he : P - 1 = 2 * 28948022309329048855892746252171976963317496166410141009864396001978282409974 := by decide
      rw [he, Nat.mul_div_cancel_left _ (by norm_num), ← powF_eq _ _ (by decide)]
      decide
    rcases hq.dvd_mul.mp hdvd with h | hdvd
    · obtain rfl : q = 3 := (Nat.prime_dvd_prime_iff_eq hq nprime_3).mp h
      have he : P - 1 = 3 * 19298681539552699237261830834781317975544997444273427339909597334652188273316 := by decide
      rw [he, Nat.mul_div_cancel_left _ (by norm_num), ← powF_eq _ _ (by decide)]
      decide
    rcases hq.dvd_mul.mp hdvd with h | hdvd
    · obtain rfl : q = 65147 := (Nat.prime_dvd_prime_iff_eq hq nprime_65147).mp h
      have he : P - 1 = 65147 * 888698552790736299626774717244753464114003596985590771942357929052090884 := by decide
      rw [he, Nat.mul_div_cancel_left _ (by norm_num), ← powF_eq _ _ (by decide)]
      decide
    obtain rfl : q = 74058212732561358302231226437062788676166966415465897661863160754340907 := (Nat.prime_dvd_prime_iff_eq hq nprime_74058212732561358302231226437062788676166966415465897661863160754340907).mp hdvd
    have he : P - 1 = 74058212732561358302231226437062788676166966415465897661863160754340907 * 781764 := by decide
    rw [he, Nat.mul_div_cancel_left _ (by norm_num), ← powF_eq _ _ (by decide)]
    decide

instance P_prime_fact : Fact (Nat.Prime P) := ⟨P_prime⟩

/-- The coordinate field of curve25519. -/
abbrev F : Type := ZMod P

/-! ## Curve constants

Modelled from the spec: `constants.rs` is not part of the source tree; the spec
lists the domain constants (the curve `d` parameter, `4d`, `a - d`, a square root
of `-1`).  Their concrete residues are the curve25519 values
`d = -121665/121666`, `4d`, `a - d = -1 - d` (with `a = -1`) and `sqrt(-1)`. -/

/-- Modelled from the spec: the Edwards `d` parameter, `-121665/121666 mod P`. -/
def d : F := 37095705934669439343138083508754565189542113879843219016388785533085940283555

/-- Modelled from the spec: the constant `4d` (`constants::d4`). -/
def d4 : F := 32590734501361561948981349026330352904898470853732312026097558124430631494322

/-- Modelled from the spec: the constant `a - d = -1 - d` (`constants::a_minus_d`). -/
def a_minus_d : F := 20800338683988658368647408995589388737092878452977063003340006470870624536393

/-- Modelled from the spec: a fixed square root of `-1` (`constants::SQRT_M1`). -/
def SQRT_M1 : F := 19681161376707505956807079304988542015446066515923890162744021073123829784752

theorem d_eq : d * 121666 = -121665 := by decide

theorem d4_eq : d4 = 4 * d := by decide

theorem a_minus_d_eq : a_minus_d = -1 - d := by decide

theorem SQRT_M1_sq : SQRT_M1 * SQRT_M1 = -1 := by decide

theorem d_ne_zero : d ≠ 0 := by decide

theorem a_minus_d_ne_zero : a_minus_d ≠ 0 := by decide

theorem two_ne_zero_F : (2 : F) ≠ 0 := by decide

theorem four_ne_zero_F : (4 : F) ≠ 0 := by decide

/-- A fixed square root of `a_minus_d` (it is a quadratic residue mod `P`). -/
def OMEGA : F := 32832975665273474237674078345641801225390460830327625559649581521346134069714

theorem OMEGA_sq : OMEGA * OMEGA = a_minus_d := by decide

/-- A fixed square root of `a_minus_d * (-4) * (1 + d)` (a quadratic residue mod `P`). -/
def OMEGAK : F := 16295367250680780974490674513165176452449235426866156013048779062215315747163

theorem OMEGAK_sq : OMEGAK * OMEGAK = a_minus_d * (-4) * (1 + d) := by decide

/-! ## Euler's criterion and non-squareness of `d` -/

theorem pow_half_eq_one_of_isSquare {x : F} (hx : x ≠ 0) (h : IsSquare x) :
    x ^ ((P - 1) / 2) = 1 := by
  obtain ⟨r, rfl⟩ := h
  have hr : r ≠ 0 := by
    intro h0
    exact hx (by rw [h0, mul_zero])
  have : r * r = r ^ 2 := by ring
  rw [this, ← pow_mul]
  have h2 : 2 * ((P - 1) / 2) = P - 1 := by decide
  rw [h2]
  exact ZMod.pow_card_sub_one_eq_one hr

theorem d_not_isSquare : ¬ IsSquare d := by
  intro h
  have h1 : d ^ ((P - 1) / 2) = 1 := pow_half_eq_one_of_isSquare d_ne_zero h
  rw [← powF_eq _ _ (by decide)] at h1
  exact absurd h1 (by decide)

theorem neg_four_d_not_isSquare : ¬ IsSquare (-4 * d) := by
  intro h
  obtain ⟨r, hr⟩ := h
  apply d_not_isSquare
  refine ⟨r * (2 * SQRT_M1)⁻¹, ?_⟩
  have hne : (2 * SQRT_M1) ≠ 0 := by decide
  field_simp
  linear_combination hr + 4 * d * SQRT_M1_sq

/-! ## The field collaborator (`field.rs`, `subtle`), modelled from the spec

`field.rs` is not part of the source tree.  The spec (section 4.3) requires:
a fixed "negativity" predicate partitioning the non-zero field elements into two
equal classes; an absolute value forcing the non-negative representative; an
inverse-square-root with three-way outcome (zero on zero, a root of the
reciprocal on non-zero squares, failure on non-zero non-squares); field
inversion; and little-endian 32-byte (de)serialization. -/

/-- The threshold `(P - 1) / 2` of the negativity convention. -/
def halfP : ℕ := 28948022309329048855892746252171976963317496166410141009864396001978282409974

theorem halfP_eq : halfP = (P - 1) / 2 := by decide

/-- Modelled from the spec: the fixed negativity predicate on field elements.
An element is "negative" when its canonical representative exceeds `(P-1)/2`;
this partitions the non-zero elements into two equal classes. -/
def is_negative_decaf (x : F) : Bool := decide (halfP < x.val)

/-- Modelled from the spec: the complement of the negativity predicate. -/
def is_nonnegative_decaf (x : F) : Bool := !is_negative_decaf x

/-- Modelled from the spec: `abs` returns the element or its negation, whichever
is not negative under the convention. -/
def abs_decaf (x : F) : F := if is_negative_decaf x then -x else x

/-- Modelled from the spec: the `is_zero` predicate of the field type. -/
def is_zero (x : F) : Bool := decide (x = 0)

/-- Modelled from the spec: the `is_nonzero` predicate of the field type. -/
def is_nonzero (x : F) : Bool := decide (x ≠ 0)

/-- Modelled from the spec: field inversion (`FieldElement::invert`), realized as
the Fermat power `x^(P-2)` so that the kernel can evaluate it. -/
def invert (x : F) : F := powF x (P - 2)

theorem invert_eq_inv (x : F) : invert x = x⁻¹ := by
  rw [invert, powF_eq _ _ (by decide)]
  by_cases hx : x = 0
  · subst hx
    rw [zero_pow (by decide), inv_zero]
  · symm
    apply inv_eq_of_mul_eq_one_right
    have h1 : x * x ^ (P - 2) = x ^ (P - 1) := by
      rw [← pow_succ']
      congr 1
    rw [h1]
    exact ZMod.pow_card_sub_one_eq_one hx

/-- Modelled from the spec: inverse square root with failure signalling
(`FieldElement::invsqrt`).  On `0` it returns `0`; on a non-zero square `x` it
returns a root `v` of `v² · x = 1` (the one with the smaller canonical
representative); on a non-zero non-square it fails. -/
def invsqrt (x : F) : Option F :=
  if x = 0 then some 0
  else
    let roots := Finset.univ.filter (fun r : F => r * r * x = 1)
    if h : (roots.image ZMod.val).Nonempty then
      some (((roots.image ZMod.val).min' h : ℕ) : F)
    else none

theorem invsqrt_zero : invsqrt 0 = some 0 := by
  rw [invsqrt, if_pos rfl]

theorem exists_root_iff_isSquare {x : F} (hx : x ≠ 0) :
    (∃ v : F, v * v * x = 1) ↔ IsSquare x := by
  constructor
  · rintro ⟨v, hv⟩
    have hvne : v ≠ 0 := by
      intro h0
      rw [h0] at hv
      simp at hv
    refine ⟨v⁻¹, ?_⟩
    field_simp
    linear_combination hv
  · rintro ⟨c, rfl⟩
    have hcne : c ≠ 0 := by
      intro h0
      rw [h0] at hx
      simp at hx
    refine ⟨c⁻¹, ?_⟩
    field_simp

theorem invsqrt_root {x v : F} (hx : x ≠ 0) (h : invsqrt x = some v) : v * v * x = 1 := by
  rw [invsqrt, if_neg hx] at h
  set roots := Finset.univ.filter (fun r : F => r * r * x = 1) with hroots
  by_cases hne : (roots.image ZMod.val).Nonempty
  · rw [dif_pos hne] at h
    have hmem := (roots.image ZMod.val).min'_mem hne
    rw [Finset.mem_image] at hmem
    obtain ⟨r, hr, hrv⟩ := hmem
    have hrx : r * r * x = 1 := (Finset.mem_filter.mp hr).2
    have hv : v = r := by
      have := congrArg (fun o => o.getD 0) h
      simp at this
      rw [← this, ← hrv, ZMod.natCast_rightInverse r]
    rw [hv]
    exact hrx
  · rw [dif_neg hne] at h
    exact absurd h (by simp)

theorem invsqrt_eq_none_iff {x : F} : invsqrt x = none ↔ x ≠ 0 ∧ ¬ IsSquare x := by
  by_cases hx : x = 0
  · subst hx
    rw [invsqrt_zero]
    simp
  · rw [invsqrt, if_neg hx]
    set roots := Finset.univ.filter (fun r : F => r * r * x = 1) with hroots
    by_cases hne : (roots.image ZMod.val).Nonempty
    · rw [dif_pos hne]
      have hsq : IsSquare x := by
        rw [← exists_root_iff_isSquare hx]
        obtain ⟨m, hm⟩ := hne
        rw [Finset.mem_image] at hm
        obtain ⟨r, hr, _⟩ := hm
        exact ⟨r, (Finset.mem_filter.mp hr).2⟩
      simp [hsq]
    · rw [dif_neg hne]
      have hnsq : ¬ IsSquare x := by
        rw [← exists_root_iff_isSquare hx]
        rintro ⟨v, hv⟩
        exact hne ⟨v.val, Finset.mem_image.mpr ⟨v, Finset.mem_filter.mpr ⟨Finset.mem_univ v, hv⟩, rfl⟩⟩
      simp [hx, hnsq]

theorem invsqrt_isSome_of_isSquare {x : F} (h : IsSquare x) : (invsqrt x).isSome := by
  rcases ho : invsqrt x with _ | v
  · rw [invsqrt_eq_none_iff] at ho
    exact absurd h ho.2
  · rfl

/-! ## Byte strings -/

/-- A 32-byte string, as in `CompressedDecaf(pub [u8; 32])`. -/
def Bytes32 : Type := Fin 32 → Fin 256

instance : DecidableEq Bytes32 :=
  inferInstanceAs (DecidableEq (Fin 32 → Fin 256))

/-- The little-endian 32-byte representation of a natural number below `2^256`. -/
def mkBytes (n : ℕ) : Bytes32 := fun i => ⟨n / 256 ^ (i : ℕ) % 256, Nat.mod_lt _ (by norm_num)⟩

/-- Modelled from the spec: `FieldElement::to_bytes`, the little-endian encoding
of the canonical representative. -/
def to_bytes (x : F) : Bytes32 := mkBytes x.val

/-- Modelled from the spec: `FieldElement::from_bytes`, parsing 32 little-endian
bytes, masking to the low 255 bits, and reducing into the field. -/
def from_bytes (b : Bytes32) : F :=
  (((∑ i : Fin 32, (b i).val * 256 ^ (i : ℕ)) % 2 ^ 255 : ℕ) : F)

/-- The all-zero byte string. -/
def zeroBytes : Bytes32 := mkBytes 0

theorem zeroBytes_apply (i : Fin 32) : zeroBytes i = ⟨0, by norm_num⟩ := by
  rw [zeroBytes, mkBytes]
  congr 1
  rw [Nat.zero_div, Nat.zero_mod]

/-! ## Negativity-convention lemmas -/

theorem is_negative_zero : is_negative_decaf 0 = false := by decide

theorem is_negative_neg {x : F} (hx : x ≠ 0) :
    is_negative_decaf (-x) = !is_negative_decaf x := by
  have hv : (-x).val = P - x.val := by
    rw [ZMod.neg_val, if_neg hx]
  unfold is_negative_decaf
  rw [hv]
  have h1 : x.val < P := ZMod.val_lt x
  have h2 : x.val ≠ 0 := by rwa [Ne, ZMod.val_eq_zero]
  have hP : P = 2 * halfP + 1 := by decide
  by_cases h : halfP < x.val
  · rw [decide_eq_true h]
    exact decide_eq_false (by omega)
  · rw [decide_eq_false h]
    exact decide_eq_true (by omega)

theorem abs_decaf_neg (x : F) : abs_decaf (-x) = abs_decaf x := by
  by_cases hx : x = 0
  · rw [show x = 0 from hx, neg_zero]
  · cases hb : is_negative_decaf x <;>
      simp [abs_decaf, is_negative_neg hx, hb]

/-! ## The point type and the Decaf codec (translated from `src/decaf.rs`) -/

/-- The extended-projective point type (`curve::ExtendedPoint`), a 4-tuple of
field elements with affine interpretation `(X/Z, Y/Z)` and `T = XY/Z`. -/
structure ExtendedPoint where
  X : F
  Y : F
  Z : F
  T : F
deriving DecidableEq

/-- The extended-coordinate relation `T·Z = X·Y` together with the projective
form of the twisted Edwards equation `-x² + y² = 1 + d·x²·y²` (with `a = -1`). -/
def OnCurveExt (p : ExtendedPoint) : Prop :=
  p.T * p.Z = p.X * p.Y ∧
    (-(p.X * p.X) + p.Y * p.Y) * (p.Z * p.Z) =
      p.Z * p.Z * (p.Z * p.Z) + d * (p.X * p.X) * (p.Y * p.Y)

instance OnCurveExt.decidable (p : ExtendedPoint) : Decidable (OnCurveExt p) :=
  inferInstanceAs (Decidable (p.T * p.Z = p.X * p.Y ∧
    (-(p.X * p.X) + p.Y * p.Y) * (p.Z * p.Z) =
      p.Z * p.Z * (p.Z * p.Z) + d * (p.X * p.X) * (p.Y * p.Y)))

/-- A valid representative: `Z ≠ 0` and the curve relations hold. -/
def Valid (p : ExtendedPoint) : Prop :=
  p.Z ≠ 0 ∧ OnCurveExt p

instance Valid.decidable (p : ExtendedPoint) : Decidable (Valid p) :=
  inferInstanceAs (Decidable (p.Z ≠ 0 ∧ OnCurveExt p))

/-- Line 50 of `decaf.rs`: `let s = FieldElement::from_bytes(&self.0);`. -/
def sOf (b : Bytes32) : F := from_bytes b

/-- Line 51: `let ss = s.square();`. -/
def ssOf (b : Bytes32) : F := sOf b * sOf b

/-- Line 53: `let Z = &FieldElement::one() - &ss;`. -/
def ZOf (b : Bytes32) : F := 1 - ssOf b

/-- Line 54: `let u = &(&Z * &Z) - &(&constants::d4 * &ss);`. -/
def uOf (b : Bytes32) : F := ZOf b * ZOf b - d4 * ssOf b

/-- Line 55: `let uss = &u * &ss;`. -/
def ussOf (b : Bytes32) : F := uOf b * ssOf b

/-- `CompressedDecaf::decompress` (decaf.rs lines 46-72).  The early return on a
failed `invsqrt` is the `none` branch; the conditional negation of `v` and the
conditional assignment of `w` are the two `if`s; `two_minus_Z` is the field value
`2 - Z` of the limbwise computation on line 65 (established separately by the
limb-level model below). -/
def decompress (b : Bytes32) : Option ExtendedPoint :=
  match invsqrt (ussOf b) with
  | none => none
  | some v0 =>
    let s := sOf b
    let Z := ZOf b
    let v := if is_negative_decaf (v0 * uOf b) then -v0 else v0
    let two_minus_Z := 2 - Z
    let w0 := v * (s * two_minus_Z)
    let w := if is_zero s then 1 else w0
    some ⟨s + s, w * Z, Z, w * (s + s)⟩

/-- Lines 110-111 of `decaf.rs`: the pre-rotation mask
`1u8 & !(Y.is_nonzero() & xy.is_nonnegative_decaf())` with `xy = T * Z.invert()`,
as a boolean. -/
def rotFlag (p : ExtendedPoint) : Bool :=
  !(is_nonzero p.Y && is_nonnegative_decaf (p.T * invert p.Z))

/-- Lines 112-117: the conditional assignment of `(iY, iX, Z, -T)` over
`(X, Y, Z, T)` under the pre-rotation mask. -/
def rotated (p : ExtendedPoint) : ExtendedPoint :=
  if rotFlag p then ⟨p.Y * SQRT_M1, p.X * SQRT_M1, p.Z, -p.T⟩ else p

/-- Lines 127-142 of `decaf.rs`, after the inverse square root `v` of
`(a-d)(Z+Y)(Z-Y)` has been obtained: `u = (a-d)·v`; negate `v` into `r` when
`-2uZ` is negative; `s = u·(r·(-ZX - d·Y·T) + Y)`; negate; take `abs`; serialize. -/
def compressCore (Z X Y T v : F) : Bytes32 :=
  let u := a_minus_d * v
  let r := if is_negative_decaf (-(u * Z + u * Z)) then -v else v
  let s := u * (r * (-(Z * X) - d * (Y * T)) + Y)
  to_bytes (abs_decaf (-s))

/-- `ExtendedPoint::compress_decaf` (decaf.rs lines 77-143).  The
`t.invsqrt().unwrap()` of line 125 is modelled by returning an `Option`:
`none` is the panic. -/
def compress_decaf (p : ExtendedPoint) : Option Bytes32 :=
  let q := rotated p
  (invsqrt (a_minus_d * ((p.Z + q.Y) * (p.Z - q.Y)))).map fun v =>
    compressCore p.Z q.X q.Y q.T v

/-! ## The curve-point collaborator, modelled from the spec -/

/-- Modelled from the spec: extended-coordinate point addition of `curve.rs`
(the standard unified `a = -1` twisted Edwards addition used by the curve-point
collaborator). -/
def addExt (p q : ExtendedPoint) : ExtendedPoint :=
  let A := (p.Y - p.X) * (q.Y - q.X)
  let B := (p.Y + p.X) * (q.Y + q.X)
  let C := 2 * d * p.T * q.T
  let D := 2 * p.Z * q.Z
  ⟨(B - A) * (D - C), (B + A) * (D + C), (D - C) * (D + C), (B - A) * (B + A)⟩

/-- Modelled from the spec: the even-index entries `0, 2, 4, 6` of
`constants::EIGHT_TORSION`, i.e. the order-4 subgroup
`{(0,1), (-i,0), (0,-1), (i,0)}` in extended coordinates (`EIGHT_TORSION[6]`
is `(i, 0)`, see decaf.rs line 104).  `evenTorsion k` is `EIGHT_TORSION[2k]`. -/
def evenTorsion : Fin 4 → ExtendedPoint
  | 0 => ⟨0, 1, 1, 0⟩
  | 1 => ⟨-SQRT_M1, 0, 1, 0⟩
  | 2 => ⟨0, -1, 1, 0⟩
  | 3 => ⟨SQRT_M1, 0, 1, 0⟩

/-- Rescaling of a projective representative by a field element. -/
def scale (c : F) (p : ExtendedPoint) : ExtendedPoint :=
  ⟨c * p.X, c * p.Y, c * p.Z, c * p.T⟩

/-- The coordinate image of adding the 8-torsion point `(i, 0)`:
`(X:Y:Z:T) + Q_6 = (iY:iX:Z:-T)` (decaf.rs line 106). -/
def rhoPoint (p : ExtendedPoint) : ExtendedPoint :=
  ⟨SQRT_M1 * p.Y, SQRT_M1 * p.X, p.Z, -p.T⟩

/-! ## Limb-level model of `two_minus_Z` (decaf.rs line 65)

The source computes `let mut two_minus_Z = -&Z; two_minus_Z[0] += 2;` on the
limb representation of the field element.  `field.rs` is not in the source
tree, so the limb representation is modelled from the spec: five radix-`2^51`
limbs, with negation performed limbwise against the constant `16·P` written in
that radix (so that each limb subtraction cannot underflow for reduced
inputs). -/

/-- A field element in radix-`2^51` limb representation. -/
abbrev Limbs : Type := Fin 5 → ℕ

/-- The natural number represented by a limb vector. -/
def limbVal (L : Limbs) : ℕ := ∑ i : Fin 5, L i * 2 ^ (51 * (i : ℕ))

/-- The field element represented by a limb vector. -/
def limbField (L : Limbs) : F := (limbVal L : F)

/-- Modelled from the spec: the constant `16·P` in radix-`2^51` limbs,
`(16·(2^51 - 19), 16·(2^51 - 1), ..., 16·(2^51 - 1))`. -/
def negMask : Limbs := fun i => if i = 0 then 36028797018963664 else 36028797018963952

/-- Modelled from the spec: limbwise negation, `16·P - L` componentwise. -/
def negLimbs (L : Limbs) : Limbs := fun i => negMask i - L i

/-- Adding a constant to the limb of index 0 (`two_minus_Z[0] += 2`). -/
def addLimb0 (c : ℕ) (L : Limbs) : Limbs := fun i => if i = 0 then L i + c else L i

theorem limbVal_negMask : limbVal negMask = 16 * P := by decide

theorem limbVal_le_of_le {L M : Limbs} (h : ∀ i, L i ≤ M i) : limbVal L ≤ limbVal M := by
  apply Finset.sum_le_sum
  intro i _
  exact Nat.mul_le_mul_right _ (h i)

theorem pow_w0 : (2 : ℕ) ^ (51 * ((0 : Fin 5) : ℕ)) = 1 := rfl

theorem pow_w1 : (2 : ℕ) ^ (51 * ((1 : Fin 5) : ℕ)) = 2251799813685248 := rfl

theorem pow_w2 : (2 : ℕ) ^ (51 * ((2 : Fin 5) : ℕ)) = 5070602400912917605986812821504 := rfl

theorem pow_w3 :
    (2 : ℕ) ^ (51 * ((3 : Fin 5) : ℕ)) = 11417981541647679048466287755595961091061972992 := rfl

theorem pow_w4 :
    (2 : ℕ) ^ (51 * ((4 : Fin 5) : ℕ)) =
      25711008708143844408671393477458601640355247900524685364822016 := rfl

theorem limbVal_addLimb0 (c : ℕ) (L : Limbs) : limbVal (addLimb0 c L) = limbVal L + c := by
  have a0 : addLimb0 c L 0 = L 0 + c := if_pos rfl
  have a1 : addLimb0 c L 1 = L 1 := if_neg (by decide)
  have a2 : addLimb0 c L 2 = L 2 := if_neg (by decide)
  have a3 : addLimb0 c L 3 = L 3 := if_neg (by decide)
  have a4 : addLimb0 c L 4 = L 4 := if_neg (by decide)
  rw [limbVal, limbVal, Fin.sum_univ_five, Fin.sum_univ_five, a0, a1, a2, a3, a4,
    pow_w0, pow_w1, pow_w2, pow_w3, pow_w4]
  ring

theorem limbVal_negLimbs {L : Limbs} (h : ∀ i, L i ≤ negMask i) :
    limbVal (negLimbs L) = 16 * P - limbVal L := by
  have e0 : negMask 0 = 36028797018963664 := rfl
  have e1 : negMask 1 = 36028797018963952 := rfl
  have e2 : negMask 2 = 36028797018963952 := rfl
  have e3 : negMask 3 = 36028797018963952 := rfl
  have e4 : negMask 4 = 36028797018963952 := rfl
  have h0 := h 0
  have h1 := h 1
  have h2 := h 2
  have h3 := h 3
  have h4 := h 4
  rw [e0] at h0
  rw [e1] at h1
  rw [e2] at h2
  rw [e3] at h3
  rw [e4] at h4
  have hP : P = 57896044618658097711785492504343953926634992332820282019728792003956564819949 := rfl
  have n0 : negLimbs L 0 = 36028797018963664 - L 0 := by rw [negLimbs, e0]
  have n1 : negLimbs L 1 = 36028797018963952 - L 1 := by rw [negLimbs, e1]
  have n2 : negLimbs L 2 = 36028797018963952 - L 2 := by rw [negLimbs, e2]
  have n3 : negLimbs L 3 = 36028797018963952 - L 3 := by rw [negLimbs, e3]
  have n4 : negLimbs L 4 = 36028797018963952 - L 4 := by rw [negLimbs, e4]
  rw [limbVal, limbVal, Fin.sum_univ_five, Fin.sum_univ_five, n0, n1, n2, n3, n4,
    pow_w0, pow_w1, pow_w2, pow_w3, pow_w4, hP]
  omega

/-- C9: in the decoder, negating `Z` limbwise (against the `16·P` constants) and
adding `2` to the limb of index 0 yields the field element `2 - Z`, for every
limb vector representing a value `Z = 1 - s²` (no underflow for in-range limbs,
and the limb of index 0 carries weight `2^0 = 1`). -/
theorem C9_two_minus_Z_limbwise (L : Limbs) (hb : ∀ i, L i ≤ negMask i) (s : F)
    (hZ : limbField L = 1 - s * s) :
    limbField (addLimb0 2 (negLimbs L)) = 2 - limbField L := by
  have hle : limbVal L ≤ 16 * P := by
    rw [← limbVal_negMask]
    exact limbVal_le_of_le hb
  rw [limbField, limbField, limbVal_addLimb0, limbVal_negLimbs hb, Nat.cast_add,
    Nat.cast_sub hle, Nat.cast_mul, ZMod.natCast_self]
  push_cast
  ring

/-- Witness for C9 at the all-zero limb vector, representing `Z = 0 = 1 - 1²`. -/
theorem C9_witness :
    (∀ i : Fin 5, (fun _ => 0 : Limbs) i ≤ negMask i) ∧
      limbField (fun _ => 0) = 1 - (1 : F) * 1 ∧
      limbField (addLimb0 2 (negLimbs (fun _ => 0))) = 2 - limbField (fun _ => 0) :=
  ⟨by decide, by decide, C9_two_minus_Z_limbwise (fun _ => 0) (by decide) 1 (by decide)⟩

/-- C7: decoding the all-zero 32-byte string succeeds and yields the identity
representative `(0, 1, 1, 0)` (the affine point `(0, 1)`), and compressing the
identity yields the all-zero 32-byte string. -/
theorem C7_identity_round_trip :
    decompress zeroBytes = some ⟨0, 1, 1, 0⟩ ∧
      compress_decaf ⟨0, 1, 1, 0⟩ = some zeroBytes :=
  ⟨by decide, by decide⟩

/-- C1: the claimed encode-decode inverse law fails on the code as written.  The
decoder accepts the non-canonical encoding `mkBytes P` (the little-endian bytes
of the modulus itself, which parse as `s = 0`), decodes it to the identity
representative, and re-encoding yields the all-zero string rather than the
original bytes.  The decoder's own comments (decaf.rs lines 48-49) record the
missing canonicity rejection. -/
theorem C1_noncanonical_input_breaks_roundtrip :
    decompress (mkBytes P) = some ⟨0, 1, 1, 0⟩ ∧
      compress_decaf ⟨0, 1, 1, 0⟩ = some zeroBytes ∧ mkBytes P ≠ zeroBytes :=
  ⟨by decide, by decide, by decide⟩

/-- C2: the decoder fails exactly when the derived quantity `u·s²` is a non-zero
non-square; on every other 32-byte input it returns a point, and this is its
only failure mode. -/
theorem C2_decompress_none_iff (b : Bytes32) :
    decompress b = none ↔ ussOf b ≠ 0 ∧ ¬ IsSquare (ussOf b) := by
  rw [← invsqrt_eq_none_iff]
  cases h : invsqrt (ussOf b) with
  | none => simp [decompress, h]
  | some v0 => simp [decompress, h]

/-! ## Structure of successful decodings -/

theorem uOf_ne_zero (b : Bytes32) : uOf b ≠ 0 := by
  intro h
  by_cases hs : sOf b = 0
  · rw [uOf, ZOf, ssOf, hs] at h
    norm_num at h
  · apply d_not_isSquare
    have h2s : (2 : F) * sOf b ≠ 0 := mul_ne_zero two_ne_zero_F hs
    have hZ2 : ZOf b * ZOf b = 4 * d * (sOf b * sOf b) := by
      rw [uOf, ssOf, d4_eq] at h
      linear_combination h
    refine ⟨ZOf b * (2 * sOf b)⁻¹, ?_⟩
    field_simp
    linear_combination (-1 : F) * hZ2

theorem decompress_some_elim {b : Bytes32} {p : ExtendedPoint} (h : decompress b = some p) :
    ∃ v0 w, invsqrt (ussOf b) = some v0 ∧
      w = (if is_zero (sOf b) then 1 else
        (if is_negative_decaf (v0 * uOf b) then -v0 else v0) * (sOf b * (2 - ZOf b))) ∧
      p.X = sOf b + sOf b ∧ p.Y = w * ZOf b ∧ p.Z = ZOf b ∧ p.T = w * (sOf b + sOf b) := by
  cases hi : invsqrt (ussOf b) with
  | none =>
    rw [decompress] at h
    rw [hi] at h
    exact absurd h (by simp)
  | some v0 =>
    rw [decompress] at h
    rw [hi] at h
    simp only [Option.some_inj] at h
    refine ⟨v0, _, rfl, rfl, ?_, ?_, ?_, ?_⟩ <;> rw [← h]

/-- C10: every successfully decoded representative has `Z ≠ 0` (equivalently, no
`s` with `s² = 1` passes the inverse-square-root check, since there `u·s²` is the
non-square `-4d`), so the result denotes a well-defined affine point. -/
theorem C10_decoded_Z_ne_zero (b : Bytes32) (p : ExtendedPoint)
    (h : decompress b = some p) : p.Z ≠ 0 := by
  obtain ⟨v0, w, hi, _, _, _, hZ, _⟩ := decompress_some_elim h
  rw [hZ]
  intro hZ0
  have hss : ssOf b = 1 := by
    rw [ZOf] at hZ0
    linear_combination (-1 : F) * hZ0
  have huss : ussOf b = -(4 * d) := by
    rw [ussOf, hss, uOf, hss, mul_one, d4_eq, ZOf, hss]
    ring
  have hnone : invsqrt (ussOf b) = none := by
    rw [invsqrt_eq_none_iff, huss]
    refine ⟨by decide, ?_⟩
    intro hsq
    apply neg_four_d_not_isSquare
    have he : (-4 : F) * d = -(4 * d) := by ring
    rwa [he]
  rw [hnone] at hi
  exact absurd hi (by simp)

/-- Witness for C10 at the all-zero byte string. -/
theorem C10_witness :
    decompress zeroBytes = some ⟨0, 1, 1, 0⟩ ∧ ((⟨0, 1, 1, 0⟩ : ExtendedPoint).Z ≠ 0) :=
  ⟨by decide, C10_decoded_Z_ne_zero zeroBytes ⟨0, 1, 1, 0⟩ (by decide)⟩

/-- C6: every successfully decoded representative satisfies the projective
twisted Edwards curve equation (with `a = -1`) and the extended-coordinate
relation `T·Z = X·Y`. -/
theorem C6_decoded_on_curve (b : Bytes32) (p : ExtendedPoint)
    (h : decompress b = some p) : OnCurveExt p := by
  obtain ⟨v0, w, hi, hw, hX, hY, hZ, hT⟩ := decompress_some_elim h
  constructor
  · rw [hX, hY, hZ, hT]
    ring
  · rw [hX, hY, hZ]
    by_cases hs : sOf b = 0
    · have hz : is_zero (sOf b) = true := decide_eq_true hs
      rw [hz] at hw
      rw [if_pos rfl] at hw
      have hZ1 : ZOf b = 1 := by
        rw [ZOf, ssOf, hs]
        ring
      rw [hw, hZ1, hs]
      norm_num
    · have hz : is_zero (sOf b) = false := decide_eq_false hs
      rw [hz] at hw
      rw [if_neg (by simp)] at hw
      have huss_ne : ussOf b ≠ 0 := by
        rw [ussOf, ssOf]
        exact mul_ne_zero (uOf_ne_zero b) (mul_ne_zero hs hs)
      have hv0 := invsqrt_root huss_ne hi
      rw [ussOf, ssOf] at hv0
      set v := if is_negative_decaf (v0 * uOf b) then -v0 else v0 with hv
      have hvv : v * v = v0 * v0 := by
        rw [hv]
        by_cases hneg : is_negative_decaf (v0 * uOf b) = true
        · rw [if_pos hneg]
          ring
        · rw [if_neg hneg]
      have key : w * w * uOf b = (2 - ZOf b) * (2 - ZOf b) := by
        rw [hw]
        linear_combination ((2 - ZOf b) * (2 - ZOf b)) * (sOf b * sOf b * uOf b) * hvv +
          ((2 - ZOf b) * (2 - ZOf b)) * hv0
      have hZdef : ZOf b = 1 - sOf b * sOf b := by rw [ZOf, ssOf]
      have hudef : uOf b = ZOf b * ZOf b - 4 * d * (sOf b * sOf b) := by rw [uOf, ssOf, d4_eq]
      rw [hudef, hZdef] at key
      rw [hZdef]
      linear_combination ((1 - sOf b * sOf b) * (1 - sOf b * sOf b)) * key

/-- Witness for C6 at the all-zero byte string. -/
theorem C6_witness :
    decompress zeroBytes = some ⟨0, 1, 1, 0⟩ ∧ OnCurveExt ⟨0, 1, 1, 0⟩ :=
  ⟨by decide, C6_decoded_on_curve zeroBytes ⟨0, 1, 1, 0⟩ (by decide)⟩

/-- Kernel evaluation of the encoder at the identity representative. -/
theorem compress_decaf_id_eval : compress_decaf ⟨0, 1, 1, 0⟩ = some zeroBytes := by decide

/-! ## Symmetries of the encoder core

From here on, `invert` is only used through `invert_eq_inv`; it is made
irreducible so that unification never unfolds its exponentiation ladder on
symbolic arguments. -/

attribute [irreducible] invert

theorem compressCore_def (Z X Y T v : F) :
    compressCore Z X Y T v =
      to_bytes (abs_decaf (-(a_minus_d * v *
        ((if is_negative_decaf (-(a_minus_d * v * Z + a_minus_d * v * Z)) then -v else v) *
          (-(Z * X) - d * (Y * T)) + Y)))) := rfl

/-- Negating both `X` and `Y` flips the sign of the computed `s`, which the final
absolute value cancels. -/
theorem compressCore_negXY (Z X Y T v : F) :
    compressCore Z (-X) (-Y) T v = compressCore Z X Y T v := by
  rw [compressCore_def, compressCore_def]
  cases hm : is_negative_decaf (-(a_minus_d * v * Z + a_minus_d * v * Z)) with
  | false =>
    rw [if_neg (by simp)]
    have hs : -(a_minus_d * v * (v * (-(Z * -X) - d * (-Y * T)) + -Y)) =
        a_minus_d * v * (v * (-(Z * X) - d * (Y * T)) + Y) := by ring
    rw [hs, ← abs_decaf_neg]
  | true =>
    rw [if_pos rfl]
    have hs : -(a_minus_d * v * (-v * (-(Z * -X) - d * (-Y * T)) + -Y)) =
        a_minus_d * v * (-v * (-(Z * X) - d * (Y * T)) + Y) := by ring
    rw [hs, ← abs_decaf_neg]

/-- Replacing the inverse-square-root output `v` by `-v` flips `u`, leaves the
sign-corrected `r` unchanged, and so only flips the sign of `s`, which the final
absolute value cancels.  Requires `Z ≠ 0` so that the sign test is on a non-zero
value whenever `v ≠ 0`. -/
theorem compressCore_neg_v (Z X Y T v : F) (hZ : Z ≠ 0) :
    compressCore Z X Y T (-v) = compressCore Z X Y T v := by
  by_cases hv : v = 0
  · rw [hv, neg_zero]
  · rw [compressCore_def, compressCore_def]
    have hmne : -(a_minus_d * v * Z + a_minus_d * v * Z) ≠ 0 := by
      have hu : a_minus_d * v * Z ≠ 0 :=
        mul_ne_zero (mul_ne_zero a_minus_d_ne_zero hv) hZ
      intro h0
      apply hu
      have h1 : a_minus_d * v * Z + a_minus_d * v * Z = 0 := by
        have := neg_eq_zero.mp h0
        exact this
      have h2 : (2 : F) * (a_minus_d * v * Z) = 0 := by linear_combination h1
      rcases mul_eq_zero.mp h2 with h | h
      · exact absurd h two_ne_zero_F
      · exact h
    have harg : -(a_minus_d * -v * Z + a_minus_d * -v * Z) =
        -(-(a_minus_d * v * Z + a_minus_d * v * Z)) := by ring
    rw [harg, is_negative_neg hmne]
    cases hm : is_negative_decaf (-(a_minus_d * v * Z + a_minus_d * v * Z)) with
    | false =>
      rw [if_pos (by simp), if_neg (by simp)]
      have hs : -(a_minus_d * -v * (- -v * (-(Z * X) - d * (Y * T)) + Y)) =
          a_minus_d * v * (v * (-(Z * X) - d * (Y * T)) + Y) := by ring
      rw [hs, ← abs_decaf_neg]
    | true =>
      rw [if_neg (by simp), if_pos rfl]
      have hs : -(a_minus_d * -v * (-v * (-(Z * X) - d * (Y * T)) + Y)) =
          a_minus_d * v * (-v * (-(Z * X) - d * (Y * T)) + Y) := by ring
      rw [hs, ← abs_decaf_neg]

/-- Scaling all four coordinates by `c` while dividing the root by `c` leaves the
encoder core unchanged. -/
theorem compressCore_scale (Z X Y T c v : F) :
    compressCore (c * Z) (c * X) (c * Y) (c * T) v = compressCore Z X Y T (c * v) := by
  rw [compressCore_def, compressCore_def]
  have harg : -(a_minus_d * v * (c * Z) + a_minus_d * v * (c * Z)) =
      -(a_minus_d * (c * v) * Z + a_minus_d * (c * v) * Z) := by ring
  rw [harg]
  cases hm : is_negative_decaf (-(a_minus_d * (c * v) * Z + a_minus_d * (c * v) * Z)) with
  | false =>
    rw [if_neg (by simp), if_neg (by simp)]
    have hs : a_minus_d * v * (v * (-(c * Z * (c * X)) - d * (c * Y * (c * T))) + c * Y) =
        a_minus_d * (c * v) * (c * v * (-(Z * X) - d * (Y * T)) + Y) := by ring
    rw [hs]
  | true =>
    rw [if_pos rfl, if_pos rfl]
    have hs : a_minus_d * v * (-v * (-(c * Z * (c * X)) - d * (c * Y * (c * T))) + c * Y) =
        a_minus_d * (c * v) * (-(c * v) * (-(Z * X) - d * (Y * T)) + Y) := by ring
    rw [hs]

theorem compress_decaf_def (p : ExtendedPoint) :
    compress_decaf p =
      (invsqrt (a_minus_d * ((p.Z + (rotated p).Y) * (p.Z - (rotated p).Y)))).map
        (fun v => compressCore p.Z (rotated p).X (rotated p).Y (rotated p).T v) := rfl

theorem isSquare_scale {c x : F} (hc : c ≠ 0) : IsSquare (c * c * x) ↔ IsSquare x := by
  constructor
  · rintro ⟨r, hr⟩
    refine ⟨r * c⁻¹, ?_⟩
    field_simp
    linear_combination hr
  · rintro ⟨r, hr⟩
    exact ⟨c * r, by rw [hr]; ring⟩

theorem rotFlag_scale (c : F) (hc : c ≠ 0) (p : ExtendedPoint) :
    rotFlag (scale c p) = rotFlag p := by
  rw [rotFlag, rotFlag]
  have h1 : is_nonzero (scale c p).Y = is_nonzero p.Y := by
    rw [is_nonzero, is_nonzero]
    apply decide_eq_decide.mpr
    constructor
    · intro h hY
      exact h (by rw [show (scale c p).Y = c * p.Y from rfl, hY, mul_zero])
    · intro h
      exact mul_ne_zero hc h
  have h2 : (scale c p).T * invert (scale c p).Z = p.T * invert p.Z := by
    rw [invert_eq_inv, invert_eq_inv, show (scale c p).T = c * p.T from rfl,
      show (scale c p).Z = c * p.Z from rfl, mul_inv]
    rw [show c * p.T * (c⁻¹ * (p.Z)⁻¹) = c * c⁻¹ * (p.T * (p.Z)⁻¹) from by ring,
      mul_inv_cancel₀ hc, one_mul]
  rw [h1, h2]

theorem rotated_scale (c : F) (hc : c ≠ 0) (p : ExtendedPoint) :
    rotated (scale c p) = scale c (rotated p) := by
  rw [rotated, rotated, rotFlag_scale c hc p]
  cases hf : rotFlag p with
  | false => rfl
  | true =>
    show (⟨(scale c p).Y * SQRT_M1, (scale c p).X * SQRT_M1, (scale c p).Z, -(scale c p).T⟩ :
        ExtendedPoint) = scale c ⟨p.Y * SQRT_M1, p.X * SQRT_M1, p.Z, -p.T⟩
    rw [show (scale c p).Y = c * p.Y from rfl, show (scale c p).X = c * p.X from rfl,
      show (scale c p).Z = c * p.Z from rfl, show (scale c p).T = c * p.T from rfl]
    rw [scale]
    congr 1 <;> ring

/-- Rescaling a representative by any non-zero `c` does not change its Decaf
encoding (including whether the internal inverse square root fails). -/
theorem compress_decaf_scale (p : ExtendedPoint) (hZ : p.Z ≠ 0) (c : F) (hc : c ≠ 0) :
    compress_decaf (scale c p) = compress_decaf p := by
  rw [compress_decaf_def, compress_decaf_def, rotated_scale c hc p]
  rw [show (scale c p).Z = c * p.Z from rfl,
    show (scale c (rotated p)).X = c * (rotated p).X from rfl,
    show (scale c (rotated p)).Y = c * (rotated p).Y from rfl,
    show (scale c (rotated p)).T = c * (rotated p).T from rfl]
  have harg : a_minus_d * ((c * p.Z + c * (rotated p).Y) * (c * p.Z - c * (rotated p).Y)) =
      c * c * (a_minus_d * ((p.Z + (rotated p).Y) * (p.Z - (rotated p).Y))) := by ring
  rw [harg]
  set t := a_minus_d * ((p.Z + (rotated p).Y) * (p.Z - (rotated p).Y)) with ht
  by_cases ht0 : t = 0
  · rw [ht0, mul_zero, invsqrt_zero]
    show some (compressCore (c * p.Z) (c * (rotated p).X) (c * (rotated p).Y)
      (c * (rotated p).T) 0) = _
    rw [compressCore_scale, mul_zero]
    rfl
  · cases ho : invsqrt t with
    | none =>
      have hn := invsqrt_eq_none_iff.mp ho
      have hnone : invsqrt (c * c * t) = none :=
        invsqrt_eq_none_iff.mpr ⟨mul_ne_zero (mul_ne_zero hc hc) hn.1,
          fun hsq => hn.2 ((isSquare_scale hc).mp hsq)⟩
      rw [hnone]
      rfl
    | some v =>
      have hv := invsqrt_root ht0 ho
      have hsq : IsSquare t := (exists_root_iff_isSquare ht0).mp ⟨v, hv⟩
      have hct0 : c * c * t ≠ 0 := mul_ne_zero (mul_ne_zero hc hc) ht0
      have hsome := invsqrt_isSome_of_isSquare ((isSquare_scale hc).mpr hsq)
      obtain ⟨v', hv'⟩ := Option.isSome_iff_exists.mp hsome
      have hvr' := invsqrt_root hct0 hv'
      have hsq_eq : (c * v') * (c * v') = v * v := by
        have h1 : ((c * v') * (c * v') - v * v) * t = 0 := by linear_combination hvr' - hv
        rcases mul_eq_zero.mp h1 with h | h
        · linear_combination h
        · exact absurd h ht0
      rw [hv']
      show some (compressCore (c * p.Z) (c * (rotated p).X) (c * (rotated p).Y)
        (c * (rotated p).T) v') = _
      rw [compressCore_scale]
      rcases mul_self_eq_mul_self_iff.mp hsq_eq with h | h
      · rw [h]
        rfl
      · rw [h, compressCore_neg_v _ _ _ _ v hZ]
        rfl

/-! ## Invariance of the encoder under the 8-torsion rotation -/

theorem is_nonzero_true {x : F} (h : x ≠ 0) : is_nonzero x = true := decide_eq_true h

theorem is_nonzero_false {x : F} (h : x = 0) : is_nonzero x = false :=
  decide_eq_false (by simp [h])

theorem SQRT_M1_ne_zero : SQRT_M1 ≠ 0 := by decide

theorem valid_Y_zero_X_ne {p : ExtendedPoint} (h : Valid p) (hY : p.Y = 0) : p.X ≠ 0 := by
  intro hX
  obtain ⟨hZ, _, hE⟩ := h
  rw [hX, hY] at hE
  apply hZ
  have hE2 : p.Z * p.Z * (p.Z * p.Z) = 0 := by linear_combination (-1 : F) * hE
  rcases mul_eq_zero.mp hE2 with h2 | h2 <;> exact mul_self_eq_zero.mp h2

theorem rhoPoint_valid {p : ExtendedPoint} (h : Valid p) : Valid (rhoPoint p) := by
  obtain ⟨hZ, hTZ, hE⟩ := h
  refine ⟨hZ, ?_, ?_⟩
  · show -p.T * p.Z = SQRT_M1 * p.Y * (SQRT_M1 * p.X)
    linear_combination (-1 : F) * hTZ - p.X * p.Y * SQRT_M1_sq
  · show (-(SQRT_M1 * p.Y * (SQRT_M1 * p.Y)) + SQRT_M1 * p.X * (SQRT_M1 * p.X)) *
        (p.Z * p.Z) =
      p.Z * p.Z * (p.Z * p.Z) +
        d * (SQRT_M1 * p.Y * (SQRT_M1 * p.Y)) * (SQRT_M1 * p.X * (SQRT_M1 * p.X))
    linear_combination hE +
      ((p.X * p.X - p.Y * p.Y) * (p.Z * p.Z) -
        d * (SQRT_M1 * SQRT_M1 - 1) * (p.X * p.X) * (p.Y * p.Y)) * SQRT_M1_sq

theorem compress_via_rotated (p q : ExtendedPoint) (hZeq : q.Z = p.Z)
    (hrot : rotated q = rotated p) : compress_decaf q = compress_decaf p := by
  rw [compress_decaf_def, compress_decaf_def, hrot, hZeq]

theorem compress_via_rotated_neg (p q : ExtendedPoint) (hZeq : q.Z = p.Z)
    (hrot : rotated q = ⟨-(rotated p).X, -(rotated p).Y, (rotated p).Z, (rotated p).T⟩) :
    compress_decaf q = compress_decaf p := by
  rw [compress_decaf_def, compress_decaf_def, hrot, hZeq]
  show (invsqrt (a_minus_d * ((p.Z + -(rotated p).Y) * (p.Z - -(rotated p).Y)))).map
      (fun v => compressCore p.Z (-(rotated p).X) (-(rotated p).Y) (rotated p).T v) =
    (invsqrt (a_minus_d * ((p.Z + (rotated p).Y) * (p.Z - (rotated p).Y)))).map
      (fun v => compressCore p.Z (rotated p).X (rotated p).Y (rotated p).T v)
  rw [show a_minus_d * ((p.Z + -(rotated p).Y) * (p.Z - -(rotated p).Y)) =
      a_minus_d * ((p.Z + (rotated p).Y) * (p.Z - (rotated p).Y)) from by ring]
  have hf : (fun v => compressCore p.Z (-(rotated p).X) (-(rotated p).Y) (rotated p).T v) =
      fun v => compressCore p.Z (rotated p).X (rotated p).Y (rotated p).T v :=
    funext fun v => compressCore_negXY p.Z (rotated p).X (rotated p).Y (rotated p).T v
  rw [hf]

/-- Adding the 8-torsion point `(i, 0)` (in coordinate form, passing from
`(X:Y:Z:T)` to `(iY:iX:Z:-T)`) does not change the Decaf encoding of a valid
representative: the pre-rotation step always selects coordinate tuples that
agree up to simultaneous negation of `X` and `Y`, which the core cancels. -/
theorem compress_decaf_rho (p : ExtendedPoint) (hval : Valid p) :
    compress_decaf (rhoPoint p) = compress_decaf p := by
  obtain ⟨hZ, hTZ, hE⟩ := hval
  by_cases hY0 : p.Y = 0
  · -- Y = 0 forces X ≠ 0 and T = 0; p is rotated, the image point is not.
    have hX := valid_Y_zero_X_ne ⟨hZ, hTZ, hE⟩ hY0
    have hT0 : p.T = 0 := by
      have h1 : p.T * p.Z = 0 := by rw [hTZ, hY0, mul_zero]
      rcases mul_eq_zero.mp h1 with h2 | h2
      · exact h2
      · exact absurd h2 hZ
    have hfp : rotFlag p = true := by
      rw [rotFlag, is_nonzero_false hY0]
      rfl
    have hfr : rotFlag (rhoPoint p) = false := by
      rw [rotFlag]
      have h1 : is_nonzero (rhoPoint p).Y = true :=
        is_nonzero_true (mul_ne_zero SQRT_M1_ne_zero hX)
      have h2 : (rhoPoint p).T * invert (rhoPoint p).Z = 0 := by
        show -p.T * invert p.Z = 0
        rw [hT0, neg_zero, zero_mul]
      rw [h1, h2, is_nonnegative_decaf, is_negative_zero]
      rfl
    apply compress_via_rotated p (rhoPoint p) rfl
    have hrp : rotated p = ⟨p.Y * SQRT_M1, p.X * SQRT_M1, p.Z, -p.T⟩ := by
      rw [rotated, hfp]
      exact if_pos rfl
    have hrr : rotated (rhoPoint p) = rhoPoint p := by
      rw [rotated, hfr]
      exact if_neg (by simp)
    rw [hrp, hrr]
    show (⟨SQRT_M1 * p.Y, SQRT_M1 * p.X, p.Z, -p.T⟩ : ExtendedPoint) = _
    congr 1 <;> ring
  · by_cases hT0 : p.T = 0
    · -- Y ≠ 0, T = 0 forces X = 0; neither tuple is y-nonzero-rotated, signs flip.
      have hX0 : p.X = 0 := by
        have h1 : p.X * p.Y = 0 := by rw [← hTZ, hT0, zero_mul]
        rcases mul_eq_zero.mp h1 with h2 | h2
        · exact h2
        · exact absurd h2 hY0
      have hfp : rotFlag p = false := by
        rw [rotFlag, is_nonzero_true hY0]
        have hxy0 : p.T * invert p.Z = 0 := by rw [hT0, zero_mul]
        rw [hxy0, is_nonnegative_decaf, is_negative_zero]
        rfl
      have hfr : rotFlag (rhoPoint p) = true := by
        rw [rotFlag]
        have h1 : is_nonzero (rhoPoint p).Y = false := by
          apply is_nonzero_false
          show SQRT_M1 * p.X = 0
          rw [hX0, mul_zero]
        rw [h1]
        rfl
      have hrp : rotated p = p := by
        rw [rotated, hfp]
        exact if_neg (by simp)
      have hrr : rotated (rhoPoint p) = ⟨-p.X, -p.Y, p.Z, p.T⟩ := by
        rw [rotated, hfr, if_pos rfl]
        show (⟨SQRT_M1 * p.X * SQRT_M1, SQRT_M1 * p.Y * SQRT_M1, p.Z, - -p.T⟩ :
          ExtendedPoint) = _
        congr 1
        · linear_combination p.X * SQRT_M1_sq
        · linear_combination p.Y * SQRT_M1_sq
        · ring
      apply compress_via_rotated_neg p (rhoPoint p) rfl
      rw [hrr, hrp]
    · -- Y ≠ 0 and T ≠ 0 force X ≠ 0 and xy ≠ 0; the flags are complementary.
      have hX : p.X ≠ 0 := by
        intro hX0
        apply hT0
        have h1 : p.T * p.Z = 0 := by rw [hTZ, hX0, zero_mul]
        rcases mul_eq_zero.mp h1 with h2 | h2
        · exact h2
        · exact absurd h2 hZ
      have hxyne : p.T * invert p.Z ≠ 0 := by
        rw [invert_eq_inv]
        exact mul_ne_zero hT0 (inv_ne_zero hZ)
      have hrxy : (rhoPoint p).T * invert (rhoPoint p).Z = -(p.T * invert p.Z) := by
        show -p.T * invert p.Z = _
        ring
      cases hneg : is_negative_decaf (p.T * invert p.Z) with
      | false =>
        have hfp : rotFlag p = false := by
          rw [rotFlag, is_nonzero_true hY0, is_nonnegative_decaf, hneg]
          rfl
        have hfr : rotFlag (rhoPoint p) = true := by
          rw [rotFlag, hrxy, is_nonnegative_decaf, is_negative_neg hxyne, hneg]
          simp
        have hrp : rotated p = p := by
          rw [rotated, hfp]
          exact if_neg (by simp)
        have hrr : rotated (rhoPoint p) = ⟨-p.X, -p.Y, p.Z, p.T⟩ := by
          rw [rotated, hfr, if_pos rfl]
          show (⟨SQRT_M1 * p.X * SQRT_M1, SQRT_M1 * p.Y * SQRT_M1, p.Z, - -p.T⟩ :
            ExtendedPoint) = _
          congr 1
          · linear_combination p.X * SQRT_M1_sq
          · linear_combination p.Y * SQRT_M1_sq
          · ring
        apply compress_via_rotated_neg p (rhoPoint p) rfl
        rw [hrr, hrp]
      | true =>
        have hfp : rotFlag p = true := by
          rw [rotFlag, is_nonzero_true hY0, is_nonnegative_decaf, hneg]
          rfl
        have hfr : rotFlag (rhoPoint p) = false := by
          rw [rotFlag, hrxy, is_nonnegative_decaf, is_negative_neg hxyne, hneg]
          have h1 : is_nonzero (rhoPoint p).Y = true :=
            is_nonzero_true (mul_ne_zero SQRT_M1_ne_zero hX)
          rw [h1]
          rfl
        apply compress_via_rotated p (rhoPoint p) rfl
        have hrp : rotated p = ⟨p.Y * SQRT_M1, p.X * SQRT_M1, p.Z, -p.T⟩ := by
          rw [rotated, hfp]
          exact if_pos rfl
        have hrr : rotated (rhoPoint p) = rhoPoint p := by
          rw [rotated, hfr]
          exact if_neg (by simp)
        rw [hrp, hrr]
        show (⟨SQRT_M1 * p.Y, SQRT_M1 * p.X, p.Z, -p.T⟩ : ExtendedPoint) = _
        congr 1 <;> ring

/-- C4: two projectively-equivalent representatives `(X, Y, Z, T)` and
`(λX, λY, λZ, λT)` with `λ ≠ 0` compress to identical byte strings. -/
theorem C4_projective_invariance (p : ExtendedPoint) (c : F) (hval : Valid p) (hc : c ≠ 0) :
    compress_decaf (scale c p) = compress_decaf p :=
  compress_decaf_scale p hval.1 c hc

/-- Witness for C4: the identity representative rescaled by 2. -/
theorem C4_witness :
    Valid ⟨0, 1, 1, 0⟩ ∧ (2 : F) ≠ 0 ∧
      compress_decaf (scale 2 ⟨0, 1, 1, 0⟩) = compress_decaf ⟨0, 1, 1, 0⟩ :=
  ⟨by decide, by decide, C4_projective_invariance ⟨0, 1, 1, 0⟩ 2 (by decide) (by decide)⟩

/-! ## Addition of the even torsion points, in coordinates -/

theorem rhoPoint_rhoPoint (p : ExtendedPoint) :
    rhoPoint (rhoPoint p) = ⟨-p.X, -p.Y, p.Z, p.T⟩ := by
  show (⟨SQRT_M1 * (SQRT_M1 * p.X), SQRT_M1 * (SQRT_M1 * p.Y), p.Z, - -p.T⟩ :
    ExtendedPoint) = _
  congr 1
  · linear_combination p.X * SQRT_M1_sq
  · linear_combination p.Y * SQRT_M1_sq
  · ring

theorem addExt_evenTorsion0 (p : ExtendedPoint) (hTZ : p.T * p.Z = p.X * p.Y) :
    addExt p (evenTorsion 0) = scale (4 * p.Z) p := by
  rw [show evenTorsion 0 = (⟨0, 1, 1, 0⟩ : ExtendedPoint) from rfl]
  simp only [addExt, scale]
  congr 1
  · ring
  · ring
  · ring
  · linear_combination (-4 : F) * hTZ

theorem addExt_evenTorsion3 (p : ExtendedPoint) (hTZ : p.T * p.Z = p.X * p.Y) :
    addExt p (evenTorsion 3) = scale (4 * p.Z) (rhoPoint p) := by
  rw [show evenTorsion 3 = (⟨SQRT_M1, 0, 1, 0⟩ : ExtendedPoint) from rfl]
  simp only [addExt, scale, rhoPoint]
  congr 1
  · ring
  · ring
  · ring
  · linear_combination (4 : F) * p.X * p.Y * SQRT_M1_sq + (4 : F) * hTZ

theorem addExt_evenTorsion2 (p : ExtendedPoint) (hTZ : p.T * p.Z = p.X * p.Y) :
    addExt p (evenTorsion 2) = scale (4 * p.Z) (rhoPoint (rhoPoint p)) := by
  rw [show evenTorsion 2 = (⟨0, -1, 1, 0⟩ : ExtendedPoint) from rfl, rhoPoint_rhoPoint]
  simp only [addExt, scale]
  congr 1
  · ring
  · ring
  · ring
  · linear_combination (-4 : F) * hTZ

theorem addExt_evenTorsion1 (p : ExtendedPoint) (hTZ : p.T * p.Z = p.X * p.Y) :
    addExt p (evenTorsion 1) = scale (4 * p.Z) (rhoPoint (rhoPoint (rhoPoint p))) := by
  rw [show evenTorsion 1 = (⟨-SQRT_M1, 0, 1, 0⟩ : ExtendedPoint) from rfl, rhoPoint_rhoPoint]
  simp only [addExt, scale, rhoPoint]
  congr 1
  · ring
  · ring
  · ring
  · linear_combination (4 : F) * p.X * p.Y * SQRT_M1_sq + (4 : F) * hTZ

/-- C3: adding any even-index element of the 8-torsion table (`EIGHT_TORSION[2k]`,
`k = 0, 1, 2, 3`) to a valid representative does not change its Decaf encoding. -/
theorem C3_even_torsion_invariance (p : ExtendedPoint) (hval : Valid p) (k : Fin 4) :
    compress_decaf (addExt p (evenTorsion k)) = compress_decaf p := by
  have hZ : p.Z ≠ 0 := hval.1
  have hTZ : p.T * p.Z = p.X * p.Y := hval.2.1
  have hc : (4 : F) * p.Z ≠ 0 := mul_ne_zero four_ne_zero_F hZ
  have hv1 : Valid (rhoPoint p) := rhoPoint_valid hval
  have hv2 : Valid (rhoPoint (rhoPoint p)) := rhoPoint_valid hv1
  fin_cases k
  · show compress_decaf (addExt p (evenTorsion 0)) = compress_decaf p
    rw [addExt_evenTorsion0 p hTZ, compress_decaf_scale p hZ _ hc]
  · show compress_decaf (addExt p (evenTorsion 1)) = compress_decaf p
    rw [addExt_evenTorsion1 p hTZ,
      compress_decaf_scale (rhoPoint (rhoPoint (rhoPoint p))) hZ _ hc,
      compress_decaf_rho _ hv2, compress_decaf_rho _ hv1, compress_decaf_rho _ hval]
  · show compress_decaf (addExt p (evenTorsion 2)) = compress_decaf p
    rw [addExt_evenTorsion2 p hTZ,
      compress_decaf_scale (rhoPoint (rhoPoint p)) hZ _ hc,
      compress_decaf_rho _ hv1, compress_decaf_rho _ hval]
  · show compress_decaf (addExt p (evenTorsion 3)) = compress_decaf p
    rw [addExt_evenTorsion3 p hTZ,
      compress_decaf_scale (rhoPoint p) hZ _ hc,
      compress_decaf_rho _ hval]

/-- Witness for C3: the identity representative and torsion index 3
(`EIGHT_TORSION[6] = (i, 0)`). -/
theorem C3_witness :
    Valid ⟨0, 1, 1, 0⟩ ∧
      compress_decaf (addExt ⟨0, 1, 1, 0⟩ (evenTorsion 3)) = compress_decaf ⟨0, 1, 1, 0⟩ :=
  ⟨by decide, C3_even_torsion_invariance ⟨0, 1, 1, 0⟩ (by decide) 3⟩

/-! ## C5: totality of the encoder -/

/-- A valid curve-point representative (affine `y = 3`, with the matching `x`
chosen so that `x·y` is non-negative) on which the encoder's internal inverse
square root receives the non-square `a_minus_d * (1 - 9)` and fails. -/
def cexP : ExtendedPoint :=
  ⟨47490639360184182837601875270316946735278442122217188244898328344323804759522, 3, 1,
    26679828843236353089234640802262932352565341701011000695237401025058284638668⟩

/-- C5 counterexample: the encoder is not total on valid curve points: at `cexP`
the pre-rotation leaves the point unchanged, the inverse-square-root argument
`(a-d)(Z+Y)(Z-Y)` is a non-zero non-square, the inner `invsqrt` signals failure,
and the modelled `unwrap` panics (`none`). -/
theorem C5_counterexample : Valid cexP ∧ compress_decaf cexP = none := by
  constructor
  · exact ⟨by decide, by decide, by decide⟩
  · have hflag : rotFlag cexP = false := by
      rw [rotFlag]
      have h1 : is_nonzero cexP.Y = true := is_nonzero_true (by decide)
      have h2 : cexP.T * invert cexP.Z = cexP.T := by
        rw [invert_eq_inv]
        show cexP.T * (1 : F)⁻¹ = cexP.T
        rw [inv_one, mul_one]
      rw [h1, h2, is_nonnegative_decaf,
        show is_negative_decaf cexP.T = false from by decide]
      rfl
    have hrot : rotated cexP = cexP := by
      rw [rotated, hflag]
      exact if_neg (by simp)
    rw [compress_decaf_def, hrot]
    have harg : a_minus_d * ((cexP.Z + cexP.Y) * (cexP.Z - cexP.Y)) =
        (7285424384065026186177205548316751883161949374644342032466324244904698168703 : F) :=
      by decide
    rw [harg]
    have hnone : invsqrt
        (7285424384065026186177205548316751883161949374644342032466324244904698168703 : F) =
        none := by
      rw [invsqrt_eq_none_iff]
      refine ⟨by decide, ?_⟩
      intro hsq
      have h1 := pow_half_eq_one_of_isSquare (by decide) hsq
      rw [← powF_eq _ _ (by decide)] at h1
      exact absurd h1 (by decide)
    rw [hnone]
    rfl

/-- C5 amended: the encoder never fails on representatives produced by the
decoder: for every byte string accepted by `decompress`, the internal inverse
square root of the encoder receives a square (or zero) and the `unwrap` cannot
panic. -/
theorem C5_amended_total_on_decoded (b : Bytes32) (p : ExtendedPoint)
    (h : decompress b = some p) : (compress_decaf p).isSome = true := by
  obtain ⟨v0, w, hi, hw, hX, hY, hZ, hT⟩ := decompress_some_elim h
  by_cases hs : sOf b = 0
  · have hz : is_zero (sOf b) = true := decide_eq_true hs
    rw [hz] at hw
    rw [if_pos rfl] at hw
    have hZ1 : ZOf b = 1 := by
      rw [ZOf, ssOf, hs]
      ring
    obtain ⟨pX, pY, pZ, pT⟩ := p
    simp only at hX hY hZ hT
    have hp : (⟨pX, pY, pZ, pT⟩ : ExtendedPoint) = ⟨0, 1, 1, 0⟩ := by
      rw [hX, hY, hZ, hT, hw, hZ1, hs]
      congr 1 <;> ring_nf
    rw [hp, compress_decaf_id_eval]
    rfl
  · have hz : is_zero (sOf b) = false := decide_eq_false hs
    rw [hz] at hw
    rw [if_neg (by simp)] at hw
    have huss_ne : ussOf b ≠ 0 := by
      rw [ussOf, ssOf]
      exact mul_ne_zero (uOf_ne_zero b) (mul_ne_zero hs hs)
    have hv0 := invsqrt_root huss_ne hi
    rw [ussOf, ssOf] at hv0
    set vf := if is_negative_decaf (v0 * uOf b) then -v0 else v0 with hvf
    have hvv : vf * vf = v0 * v0 := by
      rw [hvf]
      by_cases hneg : is_negative_decaf (v0 * uOf b) = true
      · rw [if_pos hneg]
        ring
      · rw [if_neg hneg]
    rw [compress_decaf_def]
    have hsq : IsSquare (a_minus_d * ((p.Z + (rotated p).Y) * (p.Z - (rotated p).Y))) := by
      rw [rotated]
      cases hf : rotFlag p with
      | true =>
        rw [if_pos rfl]
        show IsSquare (a_minus_d * ((p.Z + p.X * SQRT_M1) * (p.Z - p.X * SQRT_M1)))
        rw [hX, hZ]
        refine ⟨OMEGA * (1 + sOf b * sOf b), ?_⟩
        have hZd : ZOf b = 1 - sOf b * sOf b := by rw [ZOf, ssOf]
        rw [hZd]
        linear_combination (-4 * a_minus_d * (sOf b * sOf b)) * SQRT_M1_sq +
          (-((1 + sOf b * sOf b) * (1 + sOf b * sOf b))) * OMEGA_sq
      | false =>
        rw [if_neg (by simp)]
        rw [hY, hZ]
        refine ⟨OMEGAK * (ZOf b * (sOf b * sOf b * v0)), ?_⟩
        have hw2 : w * w = v0 * v0 * (sOf b * sOf b * ((2 - ZOf b) * (2 - ZOf b))) := by
          rw [hw]
          linear_combination (sOf b * (2 - ZOf b)) * (sOf b * (2 - ZOf b)) * hvv
        have hZd : ZOf b = 1 - sOf b * sOf b := by rw [ZOf, ssOf]
        have hud : uOf b = ZOf b * ZOf b - 4 * d * (sOf b * sOf b) := by rw [uOf, ssOf, d4_eq]
        rw [hud, hZd] at hv0
        rw [hZd] at hw2 ⊢
        linear_combination
          (-(a_minus_d * ((1 - sOf b * sOf b) * (1 - sOf b * sOf b)))) * hv0 +
          (-(a_minus_d * ((1 - sOf b * sOf b) * (1 - sOf b * sOf b)))) * hw2 +
          (-(((1 - sOf b * sOf b) * (sOf b * sOf b * v0)) *
            ((1 - sOf b * sOf b) * (sOf b * sOf b * v0)))) * OMEGAK_sq
    obtain ⟨v', hv'⟩ := Option.isSome_iff_exists.mp (invsqrt_isSome_of_isSquare hsq)
    rw [hv']
    rfl

/-- Witness for the amended C5 at the all-zero byte string. -/
theorem C5_witness :
    decompress zeroBytes = some ⟨0, 1, 1, 0⟩ ∧
      (compress_decaf ⟨0, 1, 1, 0⟩).isSome = true :=
  ⟨by decide, C5_amended_total_on_decoded zeroBytes ⟨0, 1, 1, 0⟩ (by decide)⟩
